import Mathlib

/-!
# Multi-threaded HTTP multipart downloader: a verification development

Shallow embedding of `queue.c`, `http.c` and `downloader.c`.

* C strings and raw bytes are `List Char` (a C `char` is a `Char`, NUL is `'\x00'`).
* A `void *` or a nullable pointer is an `Option` (`none` is `NULL`).
* `int` values that take part in arithmetic are `Int`, wrapped to 32 bits by `wrap32`.
* A call without a defined result is `none`: a semaphore wait that blocks, a loop that runs
  out of fuel, a write or a string scan past the end of a fixed-size array, a division that
  traps.
-/

namespace Downloader

/-! ## queue.c -/

/-- The struct `QueueStruct`: the ring buffer `data` of `void *` slots, the two cursors, the
capacity, and the values of the two counting semaphores `read` (filled slots) and `write`
(free slots). The mutex only serialises the critical sections and has no state here. -/
structure Queue (α : Type) where
  data : List (Option α)
  read_index : Nat
  write_index : Nat
  size : Nat
  read : Nat
  write : Nat

/-- The function `queue_alloc`: `calloc` zeroes the slots, both cursors start at 0,
`sem_init(read, 0)` and `sem_init(write, size)`. -/
def queue_alloc {α : Type} (size : Nat) : Queue α :=
  { data := List.replicate size none
    read_index := 0
    write_index := 0
    size := size
    read := 0
    write := size }

/-- The function `queue_put`, run to completion by one caller. `sem_wait(write)` needs a
positive count, otherwise the call blocks (`none`). Then `data[write_index++] = item`, the
cursor wraps to 0 at `size`, and `sem_post(read)`. A store outside the array is no result. -/
def queue_put {α : Type} (q : Queue α) (item : Option α) : Option (Queue α) :=
  if q.write = 0 then none
  else if q.data.length ≤ q.write_index then none
  else
    let w := q.write_index + 1
    some { q with
      data := q.data.set q.write_index item
      write_index := if w ≥ q.size then 0 else w
      write := q.write - 1
      read := q.read + 1 }

/-- The function `queue_get`, run to completion by one caller. `sem_wait(read)` needs a
positive count, otherwise the call blocks (`none`). Then `data[read_index++]` is fetched, the
cursor wraps to 0 at `size`, and `sem_post(write)`. -/
def queue_get {α : Type} (q : Queue α) : Option (Option α × Queue α) :=
  if q.read = 0 then none
  else
    match q.data[q.read_index]? with
    | none => none
    | some buffer_data =>
      let r := q.read_index + 1
      some (buffer_data, { q with
        read_index := if r ≥ q.size then 0 else r
        read := q.read - 1
        write := q.write + 1 })

/-- One call on a queue: `queue_put(q, item)` or `queue_get(q)`. -/
inductive QOp (α : Type) where
  | put (item : Option α)
  | get

/-- Sequential execution of a list of calls; the result carries the final queue and the
values returned by the `queue_get` calls, in call order. `none` when some call blocks. -/
def run {α : Type} : Queue α → List (QOp α) → Option (Queue α × List (Option α))
  | q, [] => some (q, [])
  | q, QOp.put x :: ops =>
    match queue_put q x with
    | none => none
    | some q1 => run q1 ops
  | q, QOp.get :: ops =>
    match queue_get q with
    | none => none
    | some (x, q1) =>
      match run q1 ops with
      | none => none
      | some (q2, outs) => some (q2, x :: outs)

/-- The items passed to `queue_put`, in call order. -/
def putsOf {α : Type} : List (QOp α) → List (Option α)
  | [] => []
  | QOp.put x :: ops => x :: putsOf ops
  | QOp.get :: ops => putsOf ops

/-- The number of `queue_get` calls. -/
def getsOf {α : Type} : List (QOp α) → Nat
  | [] => 0
  | QOp.put _ :: ops => getsOf ops
  | QOp.get :: ops => getsOf ops + 1

/-- The discipline of the sequential model: starting with `held` items in a queue of capacity
`C`, a put is issued only while fewer than `C` items are held and a get only while at least
one item is held. -/
def Admissible {α : Type} (C : Nat) : Nat → List (QOp α) → Prop
  | _, [] => True
  | held, QOp.put _ :: ops => held < C ∧ Admissible C (held + 1) ops
  | held, QOp.get :: ops => 0 < held ∧ Admissible C (held - 1) ops

/-- The representation invariant tying a queue state to the list `items` of the values it
holds, oldest first. -/
structure QInv {α : Type} (q : Queue α) (items : List (Option α)) : Prop where
  len : q.data.length = q.size
  filled : q.read = items.length
  total : q.read + q.write = q.size
  rd : 0 < q.size → q.read_index < q.size
  wr : 0 < q.size → q.write_index = (q.read_index + q.read) % q.size
  slots : ∀ j (h : j < items.length),
    q.data[(q.read_index + j) % q.size]? = some (items.get ⟨j, h⟩)


/-! ## The C library functions the sources call -/

/-- A C string or a run of raw bytes. -/
abbrev CString := List Char

/-- The terminating byte of a C string. -/
def NUL : Char := Char.ofNat 0

/-- The value an `int` holds after an arithmetic result `n`: two's complement on 32 bits. -/
def wrap32 (n : Int) : Int := (n + 2147483648) % 4294967296 - 2147483648

/-- The C string stored at the start of a memory region: the bytes before the first NUL. -/
def cstr (mem : List Char) : CString := mem.takeWhile (fun c => decide (c ≠ NUL))

/-- Search for `needle` in `hay`, position by position; `k` is the offset of `hay`. -/
def strstr_from (needle : CString) : CString → Nat → Option Nat
  | [], k => if needle.isPrefixOf [] then some k else none
  | c :: cs, k => if needle.isPrefixOf (c :: cs) then some k else strstr_from needle cs (k + 1)

/-- The function `strstr`: offset of the first occurrence of `needle` in the C string held in
`haystack`, or `none` for `NULL`. -/
def strstr (haystack : List Char) (needle : CString) : Option Nat :=
  strstr_from needle (cstr haystack) 0

/-- The conversion `%d` of `printf`. -/
def sprintf_d (n : Int) : CString :=
  if n < 0 then '-' :: Nat.toDigits 10 n.natAbs else Nat.toDigits 10 n.toNat

/-- The predicate `isspace` in the C locale. -/
def isspace (c : Char) : Bool :=
  c = ' ' || c = Char.ofNat 9 || c = Char.ofNat 10 || c = Char.ofNat 11 ||
    c = Char.ofNat 12 || c = Char.ofNat 13

/-- Value of the leading decimal digits of a string, accumulated from `acc`. -/
def digits_value : List Char → Nat → Nat
  | [], acc => acc
  | c :: cs, acc => if c.isDigit then digits_value cs (acc * 10 + (c.toNat - 48)) else acc

/-- The value `strtol` returns for the mathematical value `n`: a `long` of 64 bits, saturated
at `LONG_MAX` and `LONG_MIN`. -/
def strtol_clamp (n : Int) : Int :=
  if 9223372036854775807 < n then 9223372036854775807
  else if n < -9223372036854775808 then -9223372036854775808
  else n

/-- The function `atoi`, which is `(int) strtol(s, NULL, 10)`: leading white space, an
optional sign, then decimal digits; the `long` result saturates and is then cut to an
`int`. -/
def atoi (s : List Char) : Int :=
  match s.dropWhile isspace with
  | '-' :: cs => wrap32 (strtol_clamp (-(digits_value cs 0 : Int)))
  | '+' :: cs => wrap32 (strtol_clamp (digits_value cs 0))
  | cs => wrap32 (strtol_clamp (digits_value cs 0))

/-! ## http.c -/

/-- The constant `BUF_SIZE` of `http.c` and `downloader.c`. -/
def BUF_SIZE : Nat := 1024

/-- The struct `Buffer`: `data` is the memory the pointer `data` addresses (the received
bytes and whatever follows them in the allocation), `length` the number of received bytes. -/
structure Buffer where
  data : List Char
  length : Nat
deriving DecidableEq

/-- The header terminator `"\r\n\r\n"`. -/
def CRLF2 : CString := [Char.ofNat 13, Char.ofNat 10, Char.ofNat 13, Char.ofNat 10]

/-- The function `http_get_content`. The result is the returned pointer as an offset into
`response->data`; `none` would be `NULL`. When `strstr` finds no header end the source
returns `response->data` itself, offset 0. -/
def http_get_content (response : Buffer) : Option Nat :=
  match strstr response.data CRLF2 with
  | some header_end => some (header_end + 4)
  | none => some 0

/-- The effect of `read(sockfd, recv_buffer, BUF_SIZE)` returning the bytes `chunk`: they
replace the start of the buffer, the rest of the buffer keeps its bytes. -/
def read_into (recv_buffer chunk : List Char) : List Char :=
  chunk ++ recv_buffer.drop chunk.length

/-- The receive loop of `get_num_tasks`. `reads` lists what the successive `read` calls
return (each at most `BUF_SIZE` bytes); after the list, or at an empty element, `read`
returns 0. Each round first scans the buffer for `Content-Length:` and converts what follows
with `atoi`, then reads. A buffer without a NUL byte makes `strstr` run past the array: no
result. -/
def content_length_loop : List (List Char) → List Char → Int → Option Int
  | [], recv_buffer, content_length =>
    if BUF_SIZE ≤ (cstr recv_buffer).length then none
    else
      match strstr recv_buffer "Content-Length:".toList with
      | some current_position => some (atoi (recv_buffer.drop (current_position + 15)))
      | none => some content_length
  | r :: reads, recv_buffer, content_length =>
    if BUF_SIZE ≤ (cstr recv_buffer).length then none
    else
      let content_length1 :=
        match strstr recv_buffer "Content-Length:".toList with
        | some current_position => atoi (recv_buffer.drop (current_position + 15))
        | none => content_length
      if r.length = 0 then some content_length1
      else if BUF_SIZE < r.length then none
      else content_length_loop reads (read_into recv_buffer r) content_length1

/-- The content length `get_num_tasks` ends its receive loop with: `recv_buffer` starts
zeroed and `content_length` starts at 0. -/
def probe_content_length (reads : List (List Char)) : Option Int :=
  content_length_loop reads (List.replicate BUF_SIZE NUL) 0

/-- The request `get_num_tasks` prints into its `BUF_SIZE` bytes with
`sprintf(received_buffer, "HEAD /%s HTTP/1.0\r\nHOST: %s\r\nUser-Agent: getter\r\n\r\n",
page, host)`. -/
def head_request (page host : CString) : CString :=
  "HEAD /".toList ++ page ++ " HTTP/1.0\r\nHOST: ".toList ++ host ++
    "\r\nUser-Agent: getter\r\n\r\n".toList

/-- The function `get_num_tasks`, for a connection that opens and answers with `reads`. The
result is the returned `int` paired with the value of the global `max_chunk_size` after the
call. The host copy is `strncpy(host, url, BUF_SIZE)`: a URL of `BUF_SIZE` characters or more
leaves `host` without its NUL byte and `strstr` runs past it. The request must fit its
buffer with its NUL byte. The division `content_length / threads` traps for `threads = 0`
and for `INT_MIN / -1`. In each of these cases there is no result: `none`. -/
def get_num_tasks (url : CString) (threads : Int) (reads : List (List Char))
    (max_chunk_size : Int) : Option (Int × Int) :=
  let host := url.take BUF_SIZE
  if BUF_SIZE ≤ (cstr host).length then none
  else
    match strstr host ['/'] with
    | some k =>
      if BUF_SIZE ≤ (head_request ((cstr host).drop (k + 1)) ((cstr host).take k)).length
      then none
      else
        match probe_content_length reads with
        | none => none
        | some content_length =>
          if threads = 0 ∨ (content_length = -2147483648 ∧ threads = -1) then none
          else some (threads, wrap32 (wrap32 (Int.tdiv content_length threads) + 1))
    | none => some (-1, max_chunk_size)

/-- The function `get_max_chunk_size`: reads the global. -/
def get_max_chunk_size (max_chunk_size : Int) : Int := max_chunk_size

/-! ## downloader.c -/

/-- The constant `FILE_SIZE`. -/
def FILE_SIZE : Nat := 256

/-- The struct `Task`. -/
structure Task where
  url : CString
  min_range : Int
  max_range : Int
  result : Option Buffer
deriving DecidableEq

/-- The function `new_task`. -/
def new_task (url : CString) (min_range max_range : Int) : Task :=
  { url := url, min_range := min_range, max_range := max_range, result := none }

/-- The `for` loop of `main` that enqueues the tasks of one resource: task `i` is
`new_task(line, i * bytes, (i+1) * bytes - 1)` in `int` arithmetic, in the order of
the `queue_put` calls. -/
def enqueue_tasks (line : CString) (num_tasks bytes : Int) : List Task :=
  (List.range num_tasks.toNat).map fun (i : Nat) =>
    new_task line (wrap32 ((i : Int) * bytes)) (wrap32 (wrap32 (((i : Int) + 1) * bytes) - 1))

/-- What `main` plans for one line of the URL file. -/
inductive Plan where
  | abort
  | chunks (num_tasks : Int) (bytes : Int) (tasks : List Task)
deriving DecidableEq

/-- The planning part of the body of the `while` loop in `main`: `get_num_tasks`, the
check `num_tasks == -1` that ends the process with `exit(1)`, `get_max_chunk_size`, and
the enqueue loop. `Plan.abort` is the process ending with `exit(1)` before any task is
enqueued; `none` when `get_num_tasks` has no result. -/
def main_plan (line : CString) (num_workers : Int) (reads : List (List Char))
    (max_chunk_size : Int) : Option Plan :=
  match get_num_tasks line num_workers reads max_chunk_size with
  | none => none
  | some (num_tasks, max_chunk_size1) =>
    if num_tasks = -1 then some Plan.abort
    else
      let bytes := get_max_chunk_size max_chunk_size1
      some (Plan.chunks num_tasks bytes (enqueue_tasks line num_tasks bytes))

/-- What `worker_thread` did with the items it was handed. -/
structure WorkerRun where
  done : List Task
  unread : List (Option Task)
  returned : Bool
deriving DecidableEq

/-- The function `worker_thread` as a function of the items its `queue_get(todo)` calls
return, oldest first; `http_url` is the fetch. Each task gets `result = http_url(url, range)`
with `range` printed by `"%d-%d"` (two `int`s and a dash always fit the 1024-byte buffer) and
is put on `done`; a `NULL` item ends the loop. With no item left the thread waits in
`queue_get`: `returned = false`. -/
def worker_thread (http_url : CString → CString → Option Buffer) :
    List (Option Task) → WorkerRun
  | [] => { done := [], unread := [], returned := false }
  | none :: rest => { done := [], unread := rest, returned := true }
  | some task :: rest =>
    let range := sprintf_d task.min_range ++ ['-'] ++ sprintf_d task.max_range
    let task1 := { task with result := http_url task.url range }
    let r := worker_thread http_url rest
    { r with done := task1 :: r.done }

/-- A model file system: the content of the regular file at each path, if there is one. -/
abbrev FS := CString → Option (List Char)

/-- The file system with the file at `path` holding `content`. -/
def FS.write (fs : FS) (path : CString) (content : List Char) : FS :=
  fun p => if p = path then some content else fs p

/-- The file system without the file at `path`. -/
def FS.remove (fs : FS) (path : CString) : FS :=
  fun p => if p = path then none else fs p

/-- The messages `wait_task` prints. -/
inductive Msg where
  | error_in_response (url : CString)
  | error_downloading (url : CString)
deriving DecidableEq

/-- The name `wait_task` gives the chunk file of a task: `"%d"` of `min_range` with `/`
turned into `|`, then `snprintf(filename, FILE_SIZE, "%s/%s", download_dir, url_file)`,
which keeps at most `FILE_SIZE - 1` characters. -/
def chunk_filename (download_dir : CString) (min_range : Int) : CString :=
  let url_file := (sprintf_d min_range).map fun c => if c = '/' then '|' else c
  (download_dir ++ ['/'] ++ url_file).take (FILE_SIZE - 1)

/-- The part of `wait_task` after the task is dequeued. `fopen(filename, "w")` creates or
empties the file before the response is looked at; then `length - (data - result->data)`
bytes from `data` are written. That count is unsigned in the source: a `data` beyond the
received bytes has no result here (`none`). -/
def wait_task_on (download_dir : CString) (task : Task) (fs : FS) :
    Option (FS × Option Msg) :=
  match task.result with
  | some result =>
    let filename := chunk_filename download_dir task.min_range
    let fs1 := fs.write filename []
    match http_get_content result with
    | some data =>
      if result.length < data then none
      else
        let length := result.length - data
        some (fs1.write filename ((result.data.drop data).take length), none)
    | none => some (fs1, some (Msg.error_in_response task.url))
  | none => some (fs, some (Msg.error_downloading task.url))

/-- How a call of `merge_files` ends: it returns, or the process ends with `exit(status)`. -/
inductive Ending where
  | returned
  | exited (status : Nat)
deriving DecidableEq

/-- The path `"%s/%d"` of `dir` and `i * bytes` (an `int` product) that `merge_files` and
`remove_chunk_files` print for index `i`. -/
def chunk_path (dir : CString) (bytes : Int) (i : Nat) : CString :=
  dir ++ ['/'] ++ sprintf_d (wrap32 ((i : Int) * bytes))

/-- The inner `while (1)` of `merge_files`: `read` takes up to `BUF_SIZE` bytes of the chunk
file at offset `pos`, a read of 0 bytes ends the loop, otherwise the bytes are appended to
the merged file (opened with `O_APPEND`). `none` when `fuel` rounds do not end the loop. -/
def copy_loop : Nat → FS → CString → CString → Nat → Option FS
  | 0, _, _, _, _ => none
  | fuel + 1, fs, chunk_names, location, pos =>
    let buffer := (((fs chunk_names).getD []).drop pos).take BUF_SIZE
    if buffer.length = 0 then some fs
    else
      copy_loop fuel (fs.write location (((fs location).getD []) ++ buffer))
        chunk_names location (pos + buffer.length)

/-- The `for` loop of `merge_files` with `n` rounds left, at index `i`. The name
`sprintf(chunk_names, "%s/%d", src, i*bytes)` must fit the `FILE_SIZE` bytes of `chunk_names`
with its NUL byte, otherwise the write runs past the array: no result. A chunk file that
cannot be opened ends the process with `exit(1)`. -/
def merge_loop (fuel : Nat) (src location : CString) (bytes : Int) :
    Nat → Nat → FS → Option (FS × Ending)
  | 0, _, fs => some (fs, Ending.returned)
  | n + 1, i, fs =>
    if FILE_SIZE ≤ (chunk_path src bytes i).length then none
    else
      match fs (chunk_path src bytes i) with
      | none => some (fs, Ending.exited 1)
      | some _ =>
        match copy_loop fuel fs (chunk_path src bytes i) location 0 with
        | none => none
        | some fs1 => merge_loop fuel src location bytes n (i + 1) fs1

/-- The path `location` of `merge_files`: every `/` of `dest` becomes `+`, then
`sprintf(location, "%s/%s", src, dest)`. -/
def merged_path (src dest : CString) : CString :=
  src ++ ['/'] ++ dest.map fun c => if c = '/' then '+' else c

/-- The function `merge_files`: every `/` of `dest` becomes `+` and `src/dest` is printed
into the `FILE_SIZE` bytes of `location`; a path that does not fit with its NUL byte is
written past the array: no result. The file is then opened with `O_CREAT|O_WRONLY|O_APPEND`
(created empty when absent, kept as it is when present); `can_open` tells for each path
whether that open succeeds, and a failed open ends the process with `exit(1)`. Then the
chunk files are copied in index order. The result is the file system when the call ends and
how it ends; `none` also when `fuel` is too small for a copy loop. -/
def merge_files (fuel : Nat) (can_open : CString → Bool) (fs : FS) (src dest : CString)
    (bytes tasks : Int) : Option (FS × Ending) :=
  let location := merged_path src dest
  if FILE_SIZE ≤ location.length then none
  else if can_open location = false then some (fs, Ending.exited 1)
  else
    let fs1 := match fs location with
      | none => fs.write location []
      | some _ => fs
    merge_loop fuel src location bytes tasks.toNat 0 fs1

/-- The `while (1)` of `remove_chunk_files` at index `i`: `remove` fails on a missing file
and that ends the loop. `none` when `fuel` rounds do not end it. -/
def remove_loop : Nat → FS → CString → Int → Nat → Option FS
  | 0, _, _, _, _ => none
  | fuel + 1, fs, dir, bytes, i =>
    match fs (chunk_path dir bytes i) with
    | none => some fs
    | some _ => remove_loop fuel (fs.remove (chunk_path dir bytes i)) dir bytes (i + 1)

/-- The function `remove_chunk_files`. The parameter `files` is not used by the source. -/
def remove_chunk_files (fuel : Nat) (fs : FS) (dir : CString) (bytes : Int) (_files : Int) :
    Option FS :=
  remove_loop fuel fs dir bytes 0

/-- A file system given by a list of files; the first entry for a path counts. -/
def FS.ofList : List (CString × List Char) → FS
  | [] => fun _ => none
  | (path, content) :: rest => fun p => if p = path then some content else FS.ofList rest p

/-- The task list of a plan, when there is one. -/
def Plan.tasks : Plan → Option (List Task)
  | Plan.abort => none
  | Plan.chunks _ _ tasks => some tasks

/-- The tasks as the specification states them, over the mathematical integers: `w` tasks,
task `i` with the range `[i*s, (i+1)*s - 1]` for `s = L / w + 1`. -/
def claimed_tasks (line : CString) (w L : Int) : List Task :=
  (List.range w.toNat).map fun (i : Nat) =>
    new_task line ((i : Int) * (L / w + 1)) (((i : Int) + 1) * (L / w + 1) - 1)

/-- The probe response used in the examples: a header with the given `Content-Length`. -/
def head_response (content_length : CString) : List Char :=
  "HTTP/1.0 200 OK\r\nContent-Length: ".toList ++ content_length ++ "\r\n\r\n".toList

/-- A call sequence for a queue of capacity 2 during which both cursors wrap around. -/
def wrap_ops : List (QOp Nat) :=
  [QOp.put (some 7), QOp.put (some 8), QOp.get, QOp.put (some 9), QOp.get, QOp.get]

/-- An environment in which every open of the destination succeeds. -/
def always_opens (_path : CString) : Bool := true

/-- The chunk contents of the merge scenario, by index. -/
def scenario_chunk : Nat → List Char
  | 0 => "alpha ".toList
  | 1 => "bravo\n".toList
  | 2 => "charlie".toList
  | 3 => "\r\ndelta".toList
  | _ => []

/-- The merge scenario: the chunk files `0`, `26`, `52`, `78` in `dir`. -/
def scenario_fs : FS :=
  FS.ofList [("dir/0".toList, scenario_chunk 0), ("dir/26".toList, scenario_chunk 1),
    ("dir/52".toList, scenario_chunk 2), ("dir/78".toList, scenario_chunk 3)]

/-- A response that is no HTTP response: it has no header terminator. -/
def garbage_buffer : Buffer :=
  { data := "garbage".toList ++ List.replicate 8 NUL, length := 7 }

theorem wrap_succ (i n : Nat) (h : i < n) :
    (if i + 1 ≥ n then 0 else i + 1) = (i + 1) % n := by
  by_cases hge : i + 1 ≥ n
  · have : i + 1 = n := by omega
    simp [this]
  · rw [if_neg hge, Nat.mod_eq_of_lt (by omega)]

theorem ring_slot_ne (r j k n : Nat) (hjk : j < k) (hk : k < n) :
    (r + j) % n ≠ (r + k) % n := by
  intro h
  have h1 : (r + k) % n = (r + j + (k - j)) % n := by congr 1; omega
  rw [h1] at h
  have h2 : (k - j) % n = 0 := by
    have h3 : (r + j + (k - j)) % n = ((r + j) % n + (k - j) % n) % n := Nat.add_mod _ _ _
    rw [h3] at h
    have hlt : (r + j) % n < n := Nat.mod_lt _ (by omega)
    have hlt2 : (k - j) % n < n := Nat.mod_lt _ (by omega)
    by_cases hc : (r + j) % n + (k - j) % n < n
    · rw [Nat.mod_eq_of_lt hc] at h; omega
    · have h4 : ((r + j) % n + (k - j) % n) % n = (r + j) % n + (k - j) % n - n := by
        rw [Nat.mod_eq_sub_mod (by omega), Nat.mod_eq_of_lt (by omega)]
      omega
  rw [Nat.mod_eq_of_lt (by omega)] at h2
  omega

theorem qinv_alloc {α : Type} (C : Nat) : QInv (queue_alloc C : Queue α) [] where
  len := by simp [queue_alloc]
  filled := rfl
  total := by simp [queue_alloc]
  rd := fun h => h
  wr := fun _ => by simp [queue_alloc]
  slots := fun j h => absurd h (by simp)

theorem qinv_put {α : Type} (q : Queue α) (items : List (Option α)) (x : Option α)
    (hinv : QInv q items) (hw : 0 < q.write) :
    ∃ q1, queue_put q x = some q1 ∧ QInv q1 (items ++ [x]) ∧ q1.size = q.size := by
  have hsz : 0 < q.size := by have := hinv.total; omega
  have hlen : items.length < q.size := by have := hinv.total; have := hinv.filled; omega
  have hwi : q.write_index < q.size := by rw [hinv.wr hsz]; exact Nat.mod_lt _ hsz
  refine ⟨{ q with
      data := q.data.set q.write_index x
      write_index := if q.write_index + 1 ≥ q.size then 0 else q.write_index + 1
      write := q.write - 1
      read := q.read + 1 }, ?_, ?_, ?_⟩
  · unfold queue_put
    rw [if_neg (by omega), if_neg (by rw [hinv.len]; omega)]
  · constructor
    · simp [hinv.len]
    · simp [hinv.filled]
    · have := hinv.total; simp only; omega
    · intro _; exact hinv.rd hsz
    · intro _
      simp only
      rw [wrap_succ _ _ hwi, hinv.wr hsz, Nat.mod_add_mod, Nat.add_assoc]
    · intro j hj
      simp only [List.length_append, List.length_singleton] at hj
      simp only
      rw [List.getElem?_set, hinv.wr hsz, hinv.filled]
      by_cases hjl : j < items.length
      · rw [if_neg (fun h => ring_slot_ne _ _ _ _ hjl hlen h.symm)]
        rw [hinv.slots j hjl]
        simp [List.getElem_append_left, hjl]
      · have hje : j = items.length := by omega
        subst hje
        rw [if_pos rfl, if_pos (by rw [hinv.len]; exact Nat.mod_lt _ hsz)]
        simp
  · rfl

theorem qinv_get {α : Type} (q : Queue α) (x : Option α) (items : List (Option α))
    (hinv : QInv q (x :: items)) :
    ∃ q1, queue_get q = some (x, q1) ∧ QInv q1 items ∧ q1.size = q.size := by
  have hr : q.read = items.length + 1 := by simpa using hinv.filled
  have hsz : 0 < q.size := by have := hinv.total; omega
  have hri : q.read_index < q.size := hinv.rd hsz
  have h0 : q.data[q.read_index]? = some x := by
    have := hinv.slots 0 (by simp)
    simpa [Nat.mod_eq_of_lt hri] using this
  refine ⟨{ q with
      read_index := if q.read_index + 1 ≥ q.size then 0 else q.read_index + 1
      read := q.read - 1
      write := q.write + 1 }, ?_, ?_, ?_⟩
  · unfold queue_get
    rw [if_neg (by omega), h0]
  · constructor
    · exact hinv.len
    · simp only; omega
    · have := hinv.total; simp only; omega
    · intro _; simp only; rw [wrap_succ _ _ hri]; exact Nat.mod_lt _ hsz
    · intro _
      simp only
      rw [wrap_succ _ _ hri, hinv.wr hsz, Nat.mod_add_mod, hr]
      congr 1; omega
    · intro j hj
      simp only
      rw [wrap_succ _ _ hri, Nat.mod_add_mod]
      have := hinv.slots (j + 1) (by simpa using hj)
      rw [show q.read_index + 1 + j = q.read_index + (j + 1) by omega, this]
      simp
  · rfl

theorem run_qinv {α : Type} (ops : List (QOp α)) :
    ∀ (q : Queue α) (items : List (Option α)) (q2 : Queue α) (outs : List (Option α)),
      QInv q items → run q ops = some (q2, outs) →
      ∃ rest, QInv q2 rest ∧ items ++ putsOf ops = outs ++ rest ∧
        outs.length = getsOf ops ∧ q2.size = q.size := by
  induction ops with
  | nil =>
    intro q items q2 outs hinv hrun
    simp only [run, Option.some.injEq, Prod.mk.injEq] at hrun
    obtain ⟨rfl, rfl⟩ := hrun
    exact ⟨items, hinv, by simp [putsOf], rfl, rfl⟩
  | cons op ops ih =>
    intro q items q2 outs hinv hrun
    cases op with
    | put x =>
      by_cases hw : q.write = 0
      · simp [run, queue_put, hw] at hrun
      · obtain ⟨q1, hput, hinv1, hsz1⟩ := qinv_put q items x hinv (by omega)
        simp only [run, hput] at hrun
        obtain ⟨rest, hr, heq, hlen, hsz⟩ := ih q1 (items ++ [x]) q2 outs hinv1 hrun
        exact ⟨rest, hr, by simpa [putsOf] using heq, by simpa [getsOf] using hlen,
          hsz.trans hsz1⟩
    | get =>
      by_cases hr0 : q.read = 0
      · simp [run, queue_get, hr0] at hrun
      · cases items with
        | nil => exact absurd hinv.filled hr0
        | cons y items =>
          obtain ⟨q1, hget, hinv1, hsz1⟩ := qinv_get q y items hinv
          simp only [run, hget] at hrun
          cases hrec : run q1 ops with
          | none => simp [hrec] at hrun
          | some r =>
            obtain ⟨q3, outs3⟩ := r
            simp only [hrec, Option.some.injEq, Prod.mk.injEq] at hrun
            obtain ⟨rfl, rfl⟩ := hrun
            obtain ⟨rest, hr, heq, hlen, hsz⟩ := ih q1 items q3 outs3 hinv1 hrec
            exact ⟨rest, hr, by simpa [putsOf] using heq, by simpa [getsOf] using hlen,
              hsz.trans hsz1⟩

theorem run_admissible {α : Type} (ops : List (QOp α)) :
    ∀ (q : Queue α) (items : List (Option α)),
      QInv q items → Admissible q.size items.length ops → (run q ops).isSome = true := by
  induction ops with
  | nil => intro q items _ _; rfl
  | cons op ops ih =>
    intro q items hinv hadm
    cases op with
    | put x =>
      obtain ⟨hlt, hadm1⟩ := hadm
      have hw : 0 < q.write := by have := hinv.total; have := hinv.filled; omega
      obtain ⟨q1, hput, hinv1, hsz1⟩ := qinv_put q items x hinv hw
      simp only [run, hput]
      exact ih q1 (items ++ [x]) hinv1 (by rw [hsz1]; simpa using hadm1)
    | get =>
      obtain ⟨hpos, hadm1⟩ := hadm
      cases items with
      | nil => exact absurd hpos (by simp)
      | cons y items =>
        obtain ⟨q1, hget, hinv1, hsz1⟩ := qinv_get q y items hinv
        have h1 := ih q1 items hinv1 (by rw [hsz1]; simpa using hadm1)
        simp only [run, hget]
        cases hrec : run q1 ops with
        | none => simp [hrec] at h1
        | some r => rfl

theorem take_of_append_eq {α : Type} (xs outs rest : List α) (h : xs = outs ++ rest) :
    outs = xs.take outs.length := by
  subst h; simp

theorem putsOf_map_put {α : Type} (xs : List (Option α)) :
    putsOf (xs.map QOp.put) = xs := by
  induction xs with
  | nil => rfl
  | cons x xs ih => simp [putsOf, ih]

theorem getsOf_map_put {α : Type} (xs : List (Option α)) :
    getsOf (xs.map QOp.put) = 0 := by
  induction xs with
  | nil => rfl
  | cons x xs ih => simp [getsOf, ih]

theorem admissible_puts {α : Type} (C : Nat) (xs : List (Option α)) :
    ∀ (n : Nat) (tail : List (QOp α)), n + xs.length ≤ C →
      Admissible C (n + xs.length) tail → Admissible C n (xs.map QOp.put ++ tail) := by
  induction xs with
  | nil => intro n tail _ h; simpa using h
  | cons x xs ih =>
    intro n tail hle h
    simp only [List.length_cons] at hle h
    refine ⟨by omega, ih (n + 1) tail (by omega) ?_⟩
    rw [show n + 1 + xs.length = n + (xs.length + 1) by omega]
    exact h

/-! ## The queue claims -/

/-- C1: on a queue made by `queue_alloc C`, every sequence of puts and gets that respects the
sequential discipline (a put only while fewer than `C` items are held, a get only while one is
held) runs to completion, and the value returned by the k-th `queue_get` is the item of the
k-th `queue_put`: the returned values are the first `getsOf ops` items put, in order, and the
items put after them are the ones still held, oldest first. -/
theorem queue_get_returns_kth_put {α : Type} (C : Nat) (ops : List (QOp α))
    (h : Admissible C 0 ops) :
    ∃ q outs, run (queue_alloc C) ops = some (q, outs) ∧
      outs.length = getsOf ops ∧
      getsOf ops ≤ (putsOf ops).length ∧
      outs = (putsOf ops).take (getsOf ops) ∧
      (∀ k, k < getsOf ops → ∃ x, outs[k]? = some x ∧ (putsOf ops)[k]? = some x) ∧
      ∃ held, QInv q held ∧ putsOf ops = outs ++ held := by
  have hsome := run_admissible ops (queue_alloc C) [] (qinv_alloc C) h
  cases hrun : run (queue_alloc C) ops with
  | none => simp [hrun] at hsome
  | some r =>
    obtain ⟨q, outs⟩ := r
    obtain ⟨rest, hinv, heq, hlen, _⟩ :=
      run_qinv ops (queue_alloc C) [] q outs (qinv_alloc C) hrun
    simp only [List.nil_append] at heq
    have htake := take_of_append_eq _ _ _ heq
    have hle : getsOf ops ≤ (putsOf ops).length := by
      rw [heq, List.length_append]; omega
    refine ⟨q, outs, rfl, hlen, hle, by rw [← hlen]; exact htake, ?_, rest, hinv, heq⟩
    intro k hk
    have hko : k < outs.length := by omega
    refine ⟨outs[k], by simp [hko], ?_⟩
    rw [heq, List.getElem?_append_left hko]
    simp [hko]

/-- C1 witness: capacity 2 and six calls whose cursors wrap around; the three gets return
7, 8, 9, the items of the three puts. -/
theorem queue_get_returns_kth_put_witness :
    Admissible 2 0 wrap_ops ∧
      ∃ q outs, run (queue_alloc 2) wrap_ops = some (q, outs) ∧
        outs = [some 7, some 8, some 9] ∧ q.read_index = 1 ∧ q.write_index = 1 := by
  have hadm : Admissible 2 0 wrap_ops := by simp [Admissible, wrap_ops]
  obtain ⟨q, outs, hrun, _, _, htake, _, _⟩ := queue_get_returns_kth_put 2 wrap_ops hadm
  refine ⟨hadm, q, outs, hrun, htake.trans (by decide), ?_⟩
  have hq : (run (queue_alloc 2) wrap_ops).map (fun r => (r.1.read_index, r.1.write_index)) =
      some (1, 1) := by decide
  rw [hrun] at hq
  simpa using hq

/-- C2: for a queue made by `queue_alloc C` with `C ≥ 1`, in every state reached by puts and
gets (each enabled by its semaphore) the number of items held, puts minus gets, is in
`[0, C]`, the filled count `read` equals it, the free count `write` equals `C` minus it, and
both cursors are below `C`. Hence a run of puts alone on the empty queue completes exactly
when it has at most `C` puts, and after `C` puts one get enables the next put. -/
theorem queue_counts_invariant {α : Type} (C : Nat) (hC : 1 ≤ C) :
    (∀ (ops : List (QOp α)) (q : Queue α) (outs : List (Option α)),
      run (queue_alloc C) ops = some (q, outs) →
        getsOf ops ≤ (putsOf ops).length ∧
        (putsOf ops).length - getsOf ops ≤ C ∧
        q.read = (putsOf ops).length - getsOf ops ∧
        q.write = C - ((putsOf ops).length - getsOf ops) ∧
        q.read_index < C ∧ q.write_index < C) ∧
    (∀ xs : List (Option α),
      (run (queue_alloc C) (xs.map QOp.put)).isSome = true ↔ xs.length ≤ C) ∧
    (∀ (xs : List (Option α)) (y : Option α), xs.length = C →
      (run (queue_alloc C) (xs.map QOp.put ++ [QOp.get, QOp.put y])).isSome = true) := by
  have key : ∀ (ops : List (QOp α)) (q : Queue α) (outs : List (Option α)),
      run (queue_alloc C) ops = some (q, outs) →
        getsOf ops ≤ (putsOf ops).length ∧
        (putsOf ops).length - getsOf ops ≤ C ∧
        q.read = (putsOf ops).length - getsOf ops ∧
        q.write = C - ((putsOf ops).length - getsOf ops) ∧
        q.read_index < C ∧ q.write_index < C := by
    intro ops q outs hrun
    obtain ⟨rest, hinv, heq, hlen, hsz⟩ :=
      run_qinv ops (queue_alloc C) [] q outs (qinv_alloc C) hrun
    have hsz2 : q.size = C := hsz
    have hl : (putsOf ops).length = getsOf ops + rest.length := by
      have := congrArg List.length heq
      simpa [hlen] using this
    have ht := hinv.total
    have hf := hinv.filled
    have hpos : 0 < q.size := by omega
    have hrd := hinv.rd hpos
    have hwr : q.write_index < q.size := by rw [hinv.wr hpos]; exact Nat.mod_lt _ hpos
    refine ⟨by omega, by omega, by omega, by omega, by omega, by omega⟩
  refine ⟨key, ?_, ?_⟩
  · intro xs
    constructor
    · intro hs
      cases hrun : run (queue_alloc C) (xs.map QOp.put) with
      | none => simp [hrun] at hs
      | some r =>
        obtain ⟨q, outs⟩ := r
        have := (key _ q outs hrun).2.1
        simpa [putsOf_map_put, getsOf_map_put] using this
    · intro hle
      have hadm : Admissible C 0 (xs.map QOp.put ++ []) :=
        admissible_puts C xs 0 [] (by omega) trivial
      rw [List.append_nil] at hadm
      exact run_admissible _ (queue_alloc C) [] (qinv_alloc C) hadm
  · intro xs y hlen
    have hadm : Admissible C 0 (xs.map QOp.put ++ [QOp.get, QOp.put y]) := by
      apply admissible_puts C xs 0 _ (by omega)
      simp only [Nat.zero_add, hlen]
      exact ⟨by omega, by omega, trivial⟩
    exact run_admissible _ (queue_alloc C) [] (qinv_alloc C) hadm

/-- C2 witness: capacity 3. -/
theorem queue_counts_invariant_witness :
    1 ≤ 3 ∧
    ((∀ (ops : List (QOp Nat)) (q : Queue Nat) (outs : List (Option Nat)),
      run (queue_alloc 3) ops = some (q, outs) →
        getsOf ops ≤ (putsOf ops).length ∧
        (putsOf ops).length - getsOf ops ≤ 3 ∧
        q.read = (putsOf ops).length - getsOf ops ∧
        q.write = 3 - ((putsOf ops).length - getsOf ops) ∧
        q.read_index < 3 ∧ q.write_index < 3) ∧
    (∀ xs : List (Option Nat),
      (run (queue_alloc 3) (xs.map QOp.put)).isSome = true ↔ xs.length ≤ 3) ∧
    (∀ (xs : List (Option Nat)) (y : Option Nat), xs.length = 3 →
      (run (queue_alloc 3) (xs.map QOp.put ++ [QOp.get, QOp.put y])).isSome = true)) :=
  ⟨by decide, queue_counts_invariant 3 (by decide)⟩

/-! ## Planning the chunks of a resource -/

theorem wrap32_eq (a : Int) (h1 : -2147483648 ≤ a) (h2 : a < 2147483648) : wrap32 a = a := by
  unfold wrap32; omega

theorem strstr_from_char_none (c : Char) (hay : CString) :
    ∀ k, strstr_from [c] hay k = none ↔ c ∉ hay := by
  induction hay with
  | nil => intro k; simp [strstr_from, List.isPrefixOf]
  | cons d cs ih =>
    intro k
    by_cases hcd : c = d
    · subst hcd; simp [strstr_from, List.isPrefixOf]
    · have hdc : ¬ d = c := fun h => hcd h.symm
      simp [strstr_from, List.isPrefixOf, hcd, ih (k + 1)]

theorem strstr_char_some (c : Char) (hay : List Char) (h : c ∈ cstr hay) :
    ∃ k, strstr hay [c] = some k := by
  cases hs : strstr hay [c] with
  | some k => exact ⟨k, rfl⟩
  | none => exact absurd h ((strstr_from_char_none c (cstr hay) 0).1 hs)

theorem strstr_char_none (c : Char) (hay : List Char) (h : c ∉ cstr hay) :
    strstr hay [c] = none :=
  (strstr_from_char_none c (cstr hay) 0).2 h

theorem chunk_size_eq (w L : Int) (hw : 1 ≤ w) (hL : 0 ≤ L)
    (hfit : w * (L / w + 1) < 2147483648) :
    wrap32 (wrap32 (Int.tdiv L w) + 1) = L / w + 1 := by
  have hq : 0 ≤ L / w := Int.ediv_nonneg hL (by omega)
  have hs : L / w + 1 ≤ w * (L / w + 1) := by nlinarith
  rw [Int.tdiv_eq_ediv hL (by omega), wrap32_eq (L / w) (by omega) (by omega),
    wrap32_eq _ (by omega) (by omega)]

theorem enqueue_tasks_eq (line : CString) (w s : Int) (hs : 1 ≤ s)
    (hfit : w * s < 2147483648) :
    enqueue_tasks line w s =
      (List.range w.toNat).map fun (i : Nat) =>
        new_task line ((i : Int) * s) (((i : Int) + 1) * s - 1) := by
  unfold enqueue_tasks
  apply List.map_congr_left
  intro i hi
  have hiw : (i : Int) < w := by
    have := List.mem_range.1 hi
    omega
  have hi0 : (0 : Int) ≤ i := Int.ofNat_nonneg i
  have h1 : ((i : Int) + 1) * s ≤ w * s := by nlinarith
  have h2 : (i : Int) * s ≤ ((i : Int) + 1) * s := by nlinarith
  have h3 : 0 ≤ (i : Int) * s := by nlinarith
  rw [wrap32_eq ((i : Int) * s) (by omega) (by omega),
    wrap32_eq (((i : Int) + 1) * s) (by omega) (by omega),
    wrap32_eq (((i : Int) + 1) * s - 1) (by omega) (by omega)]

theorem strstr_from_char_lt (c : Char) (hay : CString) :
    ∀ k0 k, strstr_from [c] hay k0 = some k → k0 ≤ k ∧ k < k0 + hay.length := by
  induction hay with
  | nil => intro k0 k h; simp [strstr_from, List.isPrefixOf] at h
  | cons d cs ih =>
    intro k0 k h
    by_cases hp : List.isPrefixOf [c] (d :: cs) = true
    · simp only [strstr_from, hp, if_true, Option.some.injEq] at h
      subst h
      simp
    · simp only [strstr_from, hp, if_false] at h
      have := ih (k0 + 1) k h
      simp only [List.length_cons]
      omega

theorem cstr_take_length_le (url : CString) (n : Nat) :
    (cstr (url.take n)).length ≤ url.length := by
  have h1 : (cstr (url.take n)).length ≤ (url.take n).length :=
    (List.takeWhile_prefix _).length_le
  have h2 : (url.take n).length ≤ url.length := by
    rw [List.length_take]; omega
  omega

theorem head_request_length (page host : CString) :
    (head_request page host).length = page.length + host.length + 47 := by
  have h1 : "HEAD /".toList.length = 6 := by decide
  have h2 : " HTTP/1.0\r\nHOST: ".toList.length = 17 := by decide
  have h3 : "\r\nUser-Agent: getter\r\n\r\n".toList.length = 24 := by decide
  unfold head_request
  simp only [List.length_append, h1, h2, h3]
  omega

theorem get_num_tasks_no_slash (url : CString) (threads : Int) (reads : List (List Char))
    (max_chunk_size : Int) (hlen : url.length < BUF_SIZE)
    (hurl : '/' ∉ cstr (url.take BUF_SIZE)) :
    get_num_tasks url threads reads max_chunk_size = some (-1, max_chunk_size) := by
  have hs := strstr_char_none _ _ hurl
  have hc := cstr_take_length_le url BUF_SIZE
  unfold get_num_tasks
  simp only [hs]
  rw [if_neg (by omega)]

theorem get_num_tasks_some (url : CString) (threads L : Int) (reads : List (List Char))
    (max_chunk_size : Int) (hlen : url.length + 46 < BUF_SIZE)
    (hurl : '/' ∈ cstr (url.take BUF_SIZE)) (ht : 1 ≤ threads)
    (hL : probe_content_length reads = some L) :
    get_num_tasks url threads reads max_chunk_size =
      some (threads, wrap32 (wrap32 (Int.tdiv L threads) + 1)) := by
  obtain ⟨k, hk⟩ := strstr_char_some _ _ hurl
  have hc := cstr_take_length_le url BUF_SIZE
  have hklt : k < (cstr (url.take BUF_SIZE)).length := by
    have := (strstr_from_char_lt '/' (cstr (url.take BUF_SIZE)) 0 k hk).2
    omega
  have hreq : ¬ BUF_SIZE ≤ (head_request ((cstr (url.take BUF_SIZE)).drop (k + 1))
      ((cstr (url.take BUF_SIZE)).take k)).length := by
    rw [head_request_length, List.length_drop, List.length_take]
    omega
  unfold get_num_tasks
  simp only [hk, hL]
  rw [if_neg (by omega), if_neg hreq, if_neg (by omega)]

/-- C3, as amended: for a URL with a `/` that is short enough for the probe request to fit
its `BUF_SIZE` buffer, a worker count `w ≥ 1` and a probed size `L ≥ 0` such that
`w * (L / w + 1)` fits an `int`, `main` enqueues exactly `w` tasks, task `i` with
the range `[i*s, (i+1)*s - 1]` for `s = L / w + 1`; the first range starts at 0, each range
is non-empty and the next one starts one past its inclusive end. -/
theorem main_plan_ranges (line : CString) (w L : Int) (reads : List (List Char))
    (max_chunk_size : Int) (hline : line.length + 46 < BUF_SIZE)
    (hurl : '/' ∈ cstr (line.take BUF_SIZE)) (hw : 1 ≤ w)
    (hL : probe_content_length reads = some L) (hL0 : 0 ≤ L)
    (hfit : w * (L / w + 1) < 2147483648) :
    main_plan line w reads max_chunk_size =
        some (Plan.chunks w (L / w + 1) (claimed_tasks line w L)) ∧
      ((claimed_tasks line w L).length : Int) = w ∧
      (∀ i : Nat, (i : Int) < w →
        (claimed_tasks line w L)[i]? =
          some (new_task line ((i : Int) * (L / w + 1)) (((i : Int) + 1) * (L / w + 1) - 1))) ∧
      (∀ t, (claimed_tasks line w L)[0]? = some t → t.min_range = 0) ∧
      (∀ t ∈ claimed_tasks line w L, t.min_range ≤ t.max_range) ∧
      (∀ (i : Nat) (t u : Task), (claimed_tasks line w L)[i]? = some t →
        (claimed_tasks line w L)[i + 1]? = some u → u.min_range = t.max_range + 1) := by
  have hq : 0 ≤ L / w := Int.ediv_nonneg hL0 (by omega)
  have hget : ∀ i : Nat, (i : Int) < w →
      (claimed_tasks line w L)[i]? =
        some (new_task line ((i : Int) * (L / w + 1)) (((i : Int) + 1) * (L / w + 1) - 1)) := by
    intro i hi
    unfold claimed_tasks
    rw [List.getElem?_map, List.getElem?_range (by omega)]
    rfl
  have hlen : ((claimed_tasks line w L).length : Int) = w := by
    simp [claimed_tasks]; omega
  have hnone : ∀ i : Nat, w ≤ (i : Int) → (claimed_tasks line w L)[i]? = none := by
    intro i hi
    apply List.getElem?_eq_none
    omega
  refine ⟨?_, hlen, hget, ?_, ?_, ?_⟩
  · unfold main_plan
    rw [get_num_tasks_some line w L reads max_chunk_size hline hurl hw hL,
      chunk_size_eq w L hw hL0 hfit]
    simp only [get_max_chunk_size]
    rw [if_neg (by omega), enqueue_tasks_eq line w (L / w + 1) (by omega) hfit]
    rfl
  · intro t ht
    rw [hget 0 (by omega)] at ht
    simp only [Option.some.injEq] at ht
    subst ht
    simp [new_task]
  · intro t ht
    unfold claimed_tasks at ht
    obtain ⟨i, _, rfl⟩ := List.mem_map.1 ht
    simp only [new_task]
    have : (0 : Int) ≤ i := Int.ofNat_nonneg i
    nlinarith
  · intro i t u ht hu
    by_cases hi : ((i + 1 : Nat) : Int) < w
    · rw [hget i (by omega)] at ht
      rw [hget (i + 1) hi] at hu
      simp only [Option.some.injEq] at ht hu
      subst ht; subst hu
      simp only [new_task]
      push_cast
      ring
    · rw [hnone (i + 1) (by omega)] at hu
      exact absurd hu (by simp)

/-- C3 witness: four workers and a probed size of 100 give the chunk size 26 and the ranges
`[0,25]`, `[26,51]`, `[52,77]`, `[78,103]`. -/
theorem main_plan_ranges_witness :
    main_plan "example.com/file".toList 4 [head_response "100".toList] 0 =
        some (Plan.chunks 4 26
          [new_task "example.com/file".toList 0 25, new_task "example.com/file".toList 26 51,
            new_task "example.com/file".toList 52 77,
            new_task "example.com/file".toList 78 103]) ∧
      (∀ (i : Nat) (t u : Task),
        (claimed_tasks "example.com/file".toList 4 100)[i]? = some t →
        (claimed_tasks "example.com/file".toList 4 100)[i + 1]? = some u →
        u.min_range = t.max_range + 1) := by
  have h := main_plan_ranges "example.com/file".toList 4 100 [head_response "100".toList] 0
    (by decide) (by decide) (by decide) (by decide) (by decide) (by decide)
  exact ⟨h.1.trans (by decide), h.2.2.2.2.2⟩

/-- C3 counterexample: three workers and a probed size of 2147483647. The chunk size is
715827883 and `3 * 715827883` does not fit an `int`: the tasks `main` enqueues are not the
ones the claim states, the last range ends at -2147483648 instead of 2147483648. -/
theorem main_plan_ranges_overflow :
    (main_plan "example.com/file".toList 3 [head_response "2147483647".toList] 0).bind
          Plan.tasks ≠
        some (claimed_tasks "example.com/file".toList 3 2147483647) ∧
      (main_plan "example.com/file".toList 3 [head_response "2147483647".toList] 0).bind
          Plan.tasks =
        some [new_task "example.com/file".toList 0 715827882,
          new_task "example.com/file".toList 715827883 1431655765,
          new_task "example.com/file".toList 1431655766 (-2147483648)] := by
  decide

/-! ## Merging the chunk files -/

theorem FS.write_same (fs : FS) (p : CString) (c : List Char) : (fs.write p c) p = some c := by
  simp [FS.write]

theorem FS.write_other (fs : FS) (p q : CString) (c : List Char) (h : q ≠ p) :
    (fs.write p c) q = fs q := by
  simp [FS.write, h]

theorem FS.write_write (fs : FS) (p : CString) (a b : List Char) :
    (fs.write p a).write p b = fs.write p b := by
  funext q
  by_cases h : q = p <;> simp [FS.write, h]

theorem FS.write_self (fs : FS) (p : CString) (c : List Char) (h : fs p = some c) :
    fs.write p c = fs := by
  funext q
  by_cases hq : q = p
  · subst hq; simp [FS.write, h]
  · simp [FS.write, hq]

theorem take_append_drop_length {α : Type} (n : Nat) (l : List α) :
    l.take n ++ l.drop (l.take n).length = l := by
  by_cases h : n ≤ l.length
  · rw [List.length_take, Nat.min_eq_left h, List.take_append_drop]
  · rw [List.take_of_length_le (by omega), List.drop_length, List.append_nil]

theorem copy_loop_spec (chunk location : CString) (content : List Char)
    (hne : chunk ≠ location) :
    ∀ (fuel : Nat) (fs : FS) (pos : Nat) (old : List Char),
      fs chunk = some content → fs location = some old → content.length - pos < fuel →
      copy_loop fuel fs chunk location pos =
        some (fs.write location (old ++ content.drop pos)) := by
  intro fuel
  induction fuel with
  | zero => intro fs pos old _ _ h; omega
  | succ fuel ih =>
    intro fs pos old hc hl hfuel
    unfold copy_loop
    simp only [hc, hl, Option.getD_some]
    by_cases hz : ((content.drop pos).take BUF_SIZE).length = 0
    · rw [if_pos hz]
      have hnil : content.drop pos = [] := by
        have h1 : (content.drop pos).take BUF_SIZE = [] := List.length_eq_zero.1 hz
        rcases List.take_eq_nil_iff.1 h1 with h2 | h2
        · exact absurd h2 (by decide)
        · exact h2
      rw [hnil, List.append_nil, FS.write_self fs location old hl]
    · rw [if_neg hz]
      have hlen : ((content.drop pos).take BUF_SIZE).length ≤ content.length - pos := by
        rw [List.length_take, List.length_drop]; omega
      rw [ih (fs.write location (old ++ (content.drop pos).take BUF_SIZE))
        (pos + ((content.drop pos).take BUF_SIZE).length)
        (old ++ (content.drop pos).take BUF_SIZE)
        (by rw [FS.write_other _ _ _ _ hne]; exact hc) (FS.write_same _ _ _) (by omega)]
      rw [FS.write_write, List.append_assoc, ← List.drop_drop, take_append_drop_length]

theorem merge_loop_succ (fuel : Nat) (src location : CString) (bytes : Int) (n i : Nat)
    (fs : FS) (hfit : (chunk_path src bytes i).length < FILE_SIZE) :
    merge_loop fuel src location bytes (n + 1) i fs =
      match fs (chunk_path src bytes i) with
      | none => some (fs, Ending.exited 1)
      | some _ =>
        match copy_loop fuel fs (chunk_path src bytes i) location 0 with
        | none => none
        | some fs1 => merge_loop fuel src location bytes n (i + 1) fs1 := by
  show (if FILE_SIZE ≤ (chunk_path src bytes i).length then none else _) = _
  rw [if_neg (by omega)]

theorem merge_loop_first_chunks (fuel : Nat) (src location : CString) (bytes : Int)
    (c : Nat → List Char) :
    ∀ (n i0 m : Nat) (fs : FS) (old : List Char),
      (∀ k, k < n → fs (chunk_path src bytes (i0 + k)) = some (c (i0 + k))) →
      (∀ k, k < n → chunk_path src bytes (i0 + k) ≠ location) →
      (∀ k, k < n → (chunk_path src bytes (i0 + k)).length < FILE_SIZE) →
      (∀ k, k < n → (c (i0 + k)).length < fuel) →
      fs location = some old →
      merge_loop fuel src location bytes (n + m) i0 fs =
        merge_loop fuel src location bytes m (i0 + n)
          (fs.write location (old ++ (List.range' i0 n).flatMap c)) := by
  intro n
  induction n with
  | zero =>
    intro i0 m fs old _ _ _ _ hl
    simp [FS.write_self fs location old hl]
  | succ n ih =>
    intro i0 m fs old hc hne hfit hfuel hl
    have hc0 := hc 0 (by omega)
    have hne0 := hne 0 (by omega)
    have hfit0 := hfit 0 (by omega)
    have hf0 := hfuel 0 (by omega)
    simp only [Nat.add_zero] at hc0 hne0 hfit0 hf0
    rw [show n + 1 + m = (n + m) + 1 by omega, merge_loop_succ _ _ _ _ _ _ _ hfit0]
    simp only [hc0]
    rw [copy_loop_spec _ _ (c i0) hne0 fuel fs 0 old hc0 hl (by omega)]
    simp only [List.drop_zero]
    rw [ih (i0 + 1) m (fs.write location (old ++ c i0)) (old ++ c i0)
      (fun k hk => by
        rw [FS.write_other _ _ _ _ (by
          have := hne (k + 1) (by omega)
          rwa [show i0 + (k + 1) = i0 + 1 + k by omega] at this)]
        have := hc (k + 1) (by omega)
        rwa [show i0 + (k + 1) = i0 + 1 + k by omega] at this)
      (fun k hk => by
        have := hne (k + 1) (by omega)
        rwa [show i0 + (k + 1) = i0 + 1 + k by omega] at this)
      (fun k hk => by
        have := hfit (k + 1) (by omega)
        rwa [show i0 + (k + 1) = i0 + 1 + k by omega] at this)
      (fun k hk => by
        have := hfuel (k + 1) (by omega)
        rwa [show i0 + (k + 1) = i0 + 1 + k by omega] at this)
      (FS.write_same _ _ _)]
    rw [FS.write_write, show i0 + 1 + n = i0 + (n + 1) by omega]
    simp [List.range'_succ, List.append_assoc]

theorem merge_open_dest (fs : FS) (location : CString) :
    ∃ fs1 : FS, (match fs location with
        | none => fs.write location []
        | some _ => fs) = fs1 ∧
      fs1 location = some ((fs location).getD []) ∧ ∀ p, p ≠ location → fs1 p = fs p := by
  cases h : fs location with
  | none => exact ⟨_, rfl, by simp [FS.write], fun p hp => by simp [FS.write, hp]⟩
  | some old => exact ⟨_, rfl, by simp [h], fun _ _ => rfl⟩

theorem flatMap_range_eq (c : Nat → List Char) (n : Nat) :
    (List.range' 0 n).flatMap c = (List.range n).flatMap c := by
  rw [List.range_eq_range']

theorem merge_files_opened (fuel : Nat) (can_open : CString → Bool) (fs : FS)
    (src dest : CString) (bytes tasks : Int)
    (hloc : (merged_path src dest).length < FILE_SIZE)
    (hopen : can_open (merged_path src dest) = true) :
    merge_files fuel can_open fs src dest bytes tasks =
      merge_loop fuel src (merged_path src dest) bytes tasks.toNat 0
        (match fs (merged_path src dest) with
          | none => fs.write (merged_path src dest) []
          | some _ => fs) := by
  unfold merge_files
  simp only [hopen]
  rw [if_neg (by omega), if_neg (by decide)]

/-- C4, as amended: when the destination path and the chunk paths fit the `FILE_SIZE`
buffers, the destination can be opened, the chunk files `i*bytes`, `0 ≤ i < tasks`, exist in
`src` and none of them is the destination path, `merge_files` returns (given fuel beyond the
longest chunk) and leaves the destination holding its previous content followed by the
concatenation, in increasing `i`, of the chunk contents; that is exactly the concatenation
when the destination was absent or empty. No other file changes. -/
theorem merge_files_appends_chunks (fuel : Nat) (can_open : CString → Bool) (fs : FS)
    (src dest : CString) (bytes tasks : Int) (c : Nat → List Char)
    (hloc : (merged_path src dest).length < FILE_SIZE)
    (hopen : can_open (merged_path src dest) = true)
    (hfit : ∀ i : Nat, (i : Int) < tasks → (chunk_path src bytes i).length < FILE_SIZE)
    (hchunks : ∀ i : Nat, (i : Int) < tasks → fs (chunk_path src bytes i) = some (c i))
    (hdest : ∀ i : Nat, (i : Int) < tasks → chunk_path src bytes i ≠ merged_path src dest)
    (hfuel : ∀ i : Nat, (i : Int) < tasks → (c i).length < fuel) :
    ∃ fs1 : FS, merge_files fuel can_open fs src dest bytes tasks =
        some (fs1, Ending.returned) ∧
      fs1 (merged_path src dest) =
        some ((fs (merged_path src dest)).getD [] ++ (List.range tasks.toNat).flatMap c) ∧
      (fs (merged_path src dest) = none ∨ fs (merged_path src dest) = some [] →
        fs1 (merged_path src dest) = some ((List.range tasks.toNat).flatMap c)) ∧
      ∀ p, p ≠ merged_path src dest → fs1 p = fs p := by
  obtain ⟨fs0, hcreate, hold, hframe⟩ := merge_open_dest fs (merged_path src dest)
  have hlt : ∀ k : Nat, k < tasks.toNat → (k : Int) < tasks := fun k hk => Int.lt_toNat.1 hk
  have hrun := merge_loop_first_chunks fuel src (merged_path src dest) bytes c tasks.toNat 0 0 fs0
    ((fs (merged_path src dest)).getD [])
    (fun k hk => by
      rw [Nat.zero_add, hframe _ (hdest k (hlt k hk))]; exact hchunks k (hlt k hk))
    (fun k hk => by rw [Nat.zero_add]; exact hdest k (hlt k hk))
    (fun k hk => by rw [Nat.zero_add]; exact hfit k (hlt k hk))
    (fun k hk => by rw [Nat.zero_add]; exact hfuel k (hlt k hk))
    hold
  rw [Nat.add_zero, Nat.zero_add, flatMap_range_eq] at hrun
  have hres : merge_files fuel can_open fs src dest bytes tasks =
      some (fs0.write (merged_path src dest)
        ((fs (merged_path src dest)).getD [] ++ (List.range tasks.toNat).flatMap c),
        Ending.returned) := by
    rw [merge_files_opened fuel can_open fs src dest bytes tasks hloc hopen, hcreate, hrun]
    rfl
  refine ⟨_, hres, FS.write_same _ _ _, ?_, ?_⟩
  · intro h
    rw [FS.write_same]
    rcases h with h | h <;> simp [h]
  · intro p hp
    rw [FS.write_other _ _ _ _ hp, hframe p hp]

/-- C4 witness: the merge scenario, chunk files `0`, `26`, `52`, `78` and
`merge(dir, "example.com+file", 26, 4)`. -/
theorem merge_files_appends_chunks_witness :
    ∃ fs1 : FS, merge_files 8 always_opens scenario_fs "dir".toList
        "example.com+file".toList 26 4 = some (fs1, Ending.returned) ∧
      fs1 "dir/example.com+file".toList = some "alpha bravo\ncharlie\r\ndelta".toList := by
  have hlt : ∀ i : Nat, (i : Int) < 4 → i = 0 ∨ i = 1 ∨ i = 2 ∨ i = 3 := by
    intro i hi; omega
  obtain ⟨fs1, h1, _, h3, _⟩ := merge_files_appends_chunks 8 always_opens scenario_fs
    "dir".toList "example.com+file".toList 26 4 scenario_chunk (by decide) rfl
    (fun i hi => by rcases hlt i hi with h | h | h | h <;> subst h <;> decide)
    (fun i hi => by rcases hlt i hi with h | h | h | h <;> subst h <;> decide)
    (fun i hi => by rcases hlt i hi with h | h | h | h <;> subst h <;> decide)
    (fun i hi => by rcases hlt i hi with h | h | h | h <;> subst h <;> decide)
  exact ⟨fs1, h1, (h3 (Or.inl (by decide))).trans (by decide)⟩

/-- C4 counterexample: the merge scenario with a destination file already in the directory.
Every chunk file exists, yet the destination ends up with its old content in front of the
concatenation of the chunks. -/
theorem merge_files_keeps_old_content :
    (∀ i : Fin 4, (FS.ofList [("dir/example.com+file".toList, "old".toList),
        ("dir/0".toList, scenario_chunk 0), ("dir/26".toList, scenario_chunk 1),
        ("dir/52".toList, scenario_chunk 2), ("dir/78".toList, scenario_chunk 3)]
        (chunk_path "dir".toList 26 i.val)) = some (scenario_chunk i.val)) ∧
      (merge_files 8 always_opens
        (FS.ofList [("dir/example.com+file".toList, "old".toList),
        ("dir/0".toList, scenario_chunk 0), ("dir/26".toList, scenario_chunk 1),
        ("dir/52".toList, scenario_chunk 2), ("dir/78".toList, scenario_chunk 3)])
        "dir".toList "example.com+file".toList 26 4).map
          (fun r => (r.1 "dir/example.com+file".toList, r.2)) =
        some (some "oldalpha bravo\ncharlie\r\ndelta".toList, Ending.returned) ∧
      "oldalpha bravo\ncharlie\r\ndelta".toList ≠
        (List.range 4).flatMap scenario_chunk := by
  decide

/-- C5 at the failing input: the merge scenario after the merge, with one more file named
`104` in the directory. `remove_chunk_files(dir, 26, 4)` removes the four chunk files and
goes on to remove `104`, which is not one of the files `i*26` for `i < 4`. -/
theorem remove_chunk_files_ignores_count :
    FS.ofList [("dir/example.com+file".toList, "merged".toList),
        ("dir/0".toList, scenario_chunk 0), ("dir/26".toList, scenario_chunk 1),
        ("dir/52".toList, scenario_chunk 2), ("dir/78".toList, scenario_chunk 3),
        ("dir/104".toList, "keep".toList)] "dir/104".toList = some "keep".toList ∧
      (∀ i : Fin 4, chunk_path "dir".toList 26 i.val ≠ "dir/104".toList) ∧
      (remove_chunk_files 8 (FS.ofList [("dir/example.com+file".toList, "merged".toList),
        ("dir/0".toList, scenario_chunk 0), ("dir/26".toList, scenario_chunk 1),
        ("dir/52".toList, scenario_chunk 2), ("dir/78".toList, scenario_chunk 3),
        ("dir/104".toList, "keep".toList)]) "dir".toList 26 4).map
          (fun fs1 => (fs1 "dir/78".toList, fs1 "dir/104".toList,
            fs1 "dir/example.com+file".toList)) =
        some (none, none, some "merged".toList) := by
  decide

/-- C6, as amended: when the destination path and the chunk paths up to index `j` fit the
`FILE_SIZE` buffers, the destination can be opened, the chunk file of index `j < tasks` is
missing, the chunk files before it exist and none of these paths is the destination path,
`merge_files` ends with `exit(1)`; the destination file then exists and holds its previous
content followed by the chunks `0 .. j-1` in order, nothing of the chunks after the missing
one, and no other file has changed. -/
theorem merge_files_missing_chunk (fuel : Nat) (can_open : CString → Bool) (fs : FS)
    (src dest : CString) (bytes tasks : Int) (c : Nat → List Char) (j : Nat)
    (hj : (j : Int) < tasks)
    (hloc : (merged_path src dest).length < FILE_SIZE)
    (hopen : can_open (merged_path src dest) = true)
    (hfit : ∀ i : Nat, i ≤ j → (chunk_path src bytes i).length < FILE_SIZE)
    (hchunks : ∀ i : Nat, i < j → fs (chunk_path src bytes i) = some (c i))
    (hmissing : fs (chunk_path src bytes j) = none)
    (hdest : ∀ i : Nat, i ≤ j → chunk_path src bytes i ≠ merged_path src dest)
    (hfuel : ∀ i : Nat, i < j → (c i).length < fuel) :
    ∃ fs1 : FS, merge_files fuel can_open fs src dest bytes tasks =
        some (fs1, Ending.exited 1) ∧
      fs1 (merged_path src dest) =
        some ((fs (merged_path src dest)).getD [] ++ (List.range j).flatMap c) ∧
      ∀ p, p ≠ merged_path src dest → fs1 p = fs p := by
  obtain ⟨fs0, hcreate, hold, hframe⟩ := merge_open_dest fs (merged_path src dest)
  have hjn : j < tasks.toNat := Int.lt_toNat.2 hj
  have hrun := merge_loop_first_chunks fuel src (merged_path src dest) bytes c j 0
    (tasks.toNat - j - 1 + 1) fs0 ((fs (merged_path src dest)).getD [])
    (fun k hk => by
      rw [Nat.zero_add, hframe _ (hdest k (by omega))]; exact hchunks k hk)
    (fun k hk => by rw [Nat.zero_add]; exact hdest k (by omega))
    (fun k hk => by rw [Nat.zero_add]; exact hfit k (by omega))
    (fun k hk => by rw [Nat.zero_add]; exact hfuel k hk)
    hold
  rw [Nat.zero_add, flatMap_range_eq, merge_loop_succ _ _ _ _ _ _ _ (hfit j (Nat.le_refl j)),
    FS.write_other _ _ _ _ (hdest j (Nat.le_refl j)), hframe _ (hdest j (Nat.le_refl j)),
    hmissing] at hrun
  have hres : merge_files fuel can_open fs src dest bytes tasks =
      some (fs0.write (merged_path src dest)
        ((fs (merged_path src dest)).getD [] ++ (List.range j).flatMap c),
        Ending.exited 1) := by
    rw [merge_files_opened fuel can_open fs src dest bytes tasks hloc hopen, hcreate,
      show tasks.toNat = j + (tasks.toNat - j - 1 + 1) by omega, hrun]
  refine ⟨_, hres, FS.write_same _ _ _, ?_⟩
  intro p hp
  rw [FS.write_other _ _ _ _ hp, hframe p hp]

/-- C6 witness: two chunks of 26 bytes, the file `26` missing. -/
theorem merge_files_missing_chunk_witness :
    ∃ fs1 : FS, merge_files 8 always_opens (FS.ofList [("dir/0".toList, scenario_chunk 0)])
        "dir".toList "example.com+file".toList 26 2 = some (fs1, Ending.exited 1) ∧
      fs1 "dir/example.com+file".toList = some "alpha ".toList := by
  have hlt : ∀ i : Nat, i ≤ 1 → i = 0 ∨ i = 1 := by intro i hi; omega
  obtain ⟨fs1, h1, h2, _⟩ := merge_files_missing_chunk 8 always_opens
    (FS.ofList [("dir/0".toList, scenario_chunk 0)]) "dir".toList
    "example.com+file".toList 26 2 scenario_chunk 1 (by decide) (by decide) rfl
    (fun i hi => by rcases hlt i hi with h | h <;> subst h <;> decide)
    (fun i hi => by
      have h : i = 0 := by omega
      subst h; decide)
    (by decide)
    (fun i hi => by rcases hlt i hi with h | h <;> subst h <;> decide)
    (fun i hi => by
      have h : i = 0 := by omega
      subst h; decide)
  exact ⟨fs1, h1, h2.trans (by decide)⟩

/-- C6 counterexample: two chunks, the second chunk file missing and no destination file
beforehand. `merge_files` ends with `exit(1)` and leaves a destination file that holds the
first chunk only. -/
theorem merge_files_leaves_truncated_file :
    FS.ofList [("dir/0".toList, scenario_chunk 0)] (chunk_path "dir".toList 26 1) = none ∧
      FS.ofList [("dir/0".toList, scenario_chunk 0)] "dir/example.com+file".toList = none ∧
      (merge_files 8 always_opens (FS.ofList [("dir/0".toList, scenario_chunk 0)])
        "dir".toList "example.com+file".toList 26 2).map
          (fun r => (r.1 "dir/example.com+file".toList, r.2)) =
        some (some (scenario_chunk 0), Ending.exited 1) := by
  decide

/-! ## The size probe -/

theorem strstr_from_infix (needle : CString) :
    ∀ (hay : CString) (k i : Nat), strstr_from needle hay k = some i → needle <:+: hay := by
  intro hay
  induction hay with
  | nil =>
    intro k i h
    by_cases hp : needle.isPrefixOf [] = true
    · exact (List.isPrefixOf_iff_prefix.1 hp).isInfix
    · simp [strstr_from, hp] at h
  | cons c cs ih =>
    intro k i h
    by_cases hp : needle.isPrefixOf (c :: cs) = true
    · exact (List.isPrefixOf_iff_prefix.1 hp).isInfix
    · simp only [strstr_from, hp] at h
      exact (ih (k + 1) i h).trans (List.suffix_cons c cs).isInfix

theorem cstr_prefix_of_zero_tail (r : List Char) (n : Nat) :
    cstr (r ++ List.replicate n NUL) <+: r := by
  induction r with
  | nil =>
    cases n with
    | zero => simp [cstr]
    | succ n => simp [cstr, List.replicate_succ, List.takeWhile]
  | cons a r ih =>
    by_cases ha : a = NUL
    · simp [cstr, List.takeWhile, ha]
    · have : cstr (a :: r ++ List.replicate n NUL) = a :: cstr (r ++ List.replicate n NUL) := by
        simp [cstr, List.takeWhile, ha]
      rw [this]
      exact List.cons_prefix_cons.2 ⟨rfl, ih⟩

theorem strstr_single_read_none (needle : CString) (r : List Char) (h : ¬ needle <:+: r) :
    strstr (read_into (List.replicate BUF_SIZE NUL) r) needle = none := by
  cases hs : strstr (read_into (List.replicate BUF_SIZE NUL) r) needle with
  | none => rfl
  | some i =>
    exfalso
    apply h
    have h1 := strstr_from_infix needle _ 0 i hs
    unfold read_into at h1
    rw [List.drop_replicate] at h1
    exact h1.trans (cstr_prefix_of_zero_tail r _).isInfix

theorem probe_single_read_zero (r : List Char) (hlen : r.length < BUF_SIZE)
    (h : ¬ "Content-Length:".toList <:+: r) :
    probe_content_length [r] = some 0 := by
  have h0 : strstr (List.replicate BUF_SIZE NUL) "Content-Length:".toList = none := by decide
  have hz : ¬ BUF_SIZE ≤ (cstr (List.replicate BUF_SIZE NUL)).length := by decide
  have hterm : ¬ BUF_SIZE ≤ (cstr (read_into (List.replicate BUF_SIZE NUL) r)).length := by
    have h1 : cstr (read_into (List.replicate BUF_SIZE NUL) r) <+: r := by
      unfold read_into
      rw [List.drop_replicate]
      exact cstr_prefix_of_zero_tail r _
    have := h1.length_le
    omega
  unfold probe_content_length content_length_loop
  simp only [h0]
  rw [if_neg hz]
  by_cases hr : r.length = 0
  · rw [if_pos hr]
  · rw [if_neg hr, if_neg (by omega)]
    unfold content_length_loop
    rw [if_neg hterm, strstr_single_read_none _ r h]

/-- C7, as amended: for a URL shorter than `BUF_SIZE` that has no `/` separating host from
page, `get_num_tasks` returns the failure value -1 whatever the probe response, and `main`
then aborts. The probe response does not make it fail: for a URL with a `/` whose request
fits the buffer and `threads ≥ 1` it returns `threads` for every response the receive loop
scans, `main` plans the chunks, and for a response read in one piece that carries no
`Content-Length:` the size is taken to be 0 and the chunk size is 1. -/
theorem get_num_tasks_failure (url : CString) (threads : Int) (max_chunk_size : Int) :
    (url.length < BUF_SIZE → '/' ∉ cstr (url.take BUF_SIZE) → ∀ reads,
      get_num_tasks url threads reads max_chunk_size = some (-1, max_chunk_size) ∧
      main_plan url threads reads max_chunk_size = some Plan.abort) ∧
    (url.length + 46 < BUF_SIZE → '/' ∈ cstr (url.take BUF_SIZE) → 1 ≤ threads →
      ∀ reads L, probe_content_length reads = some L →
        ∃ s, get_num_tasks url threads reads max_chunk_size = some (threads, s) ∧
          main_plan url threads reads max_chunk_size =
            some (Plan.chunks threads s (enqueue_tasks url threads s))) ∧
    (url.length + 46 < BUF_SIZE → '/' ∈ cstr (url.take BUF_SIZE) → 1 ≤ threads →
      ∀ r, r.length < BUF_SIZE → ¬ "Content-Length:".toList <:+: r →
        get_num_tasks url threads [r] max_chunk_size = some (threads, 1) ∧
        main_plan url threads [r] max_chunk_size =
          some (Plan.chunks threads 1 (enqueue_tasks url threads 1))) := by
  have hplan : ∀ (reads : List (List Char)) (s : Int), 1 ≤ threads →
      get_num_tasks url threads reads max_chunk_size = some (threads, s) →
      main_plan url threads reads max_chunk_size =
        some (Plan.chunks threads s (enqueue_tasks url threads s)) := by
    intro reads s ht hg
    unfold main_plan
    simp only [hg, get_max_chunk_size]
    rw [if_neg (by omega)]
  refine ⟨?_, ?_, ?_⟩
  · intro hlen h reads
    have hg := get_num_tasks_no_slash url threads reads max_chunk_size hlen h
    refine ⟨hg, ?_⟩
    unfold main_plan
    simp only [hg]
    rfl
  · intro hlen h ht reads L hL
    have hg := get_num_tasks_some url threads L reads max_chunk_size hlen h ht hL
    exact ⟨_, hg, hplan reads _ ht hg⟩
  · intro hlen h ht r hr hno
    have hg := get_num_tasks_some url threads 0 [r] max_chunk_size hlen h ht
      (probe_single_read_zero r hr hno)
    have h1 : wrap32 (wrap32 (Int.tdiv 0 threads) + 1) = 1 := by
      have : Int.tdiv 0 threads = 0 := by simp
      rw [this]
      rfl
    rw [h1] at hg
    exact ⟨hg, hplan [r] 1 ht hg⟩

/-- C7 witness: the URL `example.com` has no `/`; the URL `example.com/file` has one and its
probe response has no `Content-Length:`. -/
theorem get_num_tasks_failure_witness :
    (get_num_tasks "example.com".toList 4 [] 0 = some (-1, 0) ∧
      main_plan "example.com".toList 4 [] 0 = some Plan.abort) ∧
    (∃ s, get_num_tasks "example.com/file".toList 4 [head_response "100".toList] 0 =
        some (4, s) ∧
      main_plan "example.com/file".toList 4 [head_response "100".toList] 0 =
        some (Plan.chunks 4 s (enqueue_tasks "example.com/file".toList 4 s))) ∧
    (get_num_tasks "example.com/file".toList 4 ["HTTP/1.0 200 OK\r\n\r\n".toList] 0 =
        some (4, 1) ∧
      main_plan "example.com/file".toList 4 ["HTTP/1.0 200 OK\r\n\r\n".toList] 0 =
        some (Plan.chunks 4 1 (enqueue_tasks "example.com/file".toList 4 1))) :=
  ⟨(get_num_tasks_failure "example.com".toList 4 0).1 (by decide) (by decide) [],
    (get_num_tasks_failure "example.com/file".toList 4 0).2.1 (by decide) (by decide)
      (by decide) [head_response "100".toList] 100 (by decide),
    (get_num_tasks_failure "example.com/file".toList 4 0).2.2 (by decide) (by decide)
      (by decide) _ (by decide) (by decide)⟩

/-- C7 counterexample: a probe response without a `Content-Length` header. The total size
cannot be determined from it, yet `get_num_tasks` returns 4, not -1, and `main` plans four
one-byte chunks. -/
theorem get_num_tasks_without_content_length :
    strstr "HTTP/1.0 200 OK\r\n\r\n".toList "Content-Length:".toList = none ∧
      get_num_tasks "example.com/file".toList 4 ["HTTP/1.0 200 OK\r\n\r\n".toList] 0 =
        some (4, 1) ∧
      main_plan "example.com/file".toList 4 ["HTTP/1.0 200 OK\r\n\r\n".toList] 0 =
        some (Plan.chunks 4 1 [new_task "example.com/file".toList 0 0,
          new_task "example.com/file".toList 1 1, new_task "example.com/file".toList 2 2,
          new_task "example.com/file".toList 3 3]) := by
  decide

/-! ## Splitting a response and writing the chunk file -/

/-- C8 at the failing input: a response without `"\r\n\r\n"`. `http_get_content` does not
return `NULL`, it returns `response->data` (offset 0); `wait_task` prints no error and writes
the whole response to the chunk file. -/
theorem http_get_content_without_header_end :
    strstr garbage_buffer.data CRLF2 = none ∧
      http_get_content garbage_buffer = some 0 ∧
      (wait_task_on "dir".toList
        { url := "example.com/file".toList, min_range := 26, max_range := 51,
          result := some garbage_buffer } (FS.ofList [])).map
          (fun r => (r.1 "dir/26".toList, r.2)) =
        some (some "garbage".toList, none) := by
  decide

/-- C10: handed the tasks `t_1 .. t_k`, then the shutdown sentinel `NULL`, then any further
items, `worker_thread` puts exactly `t_1 .. t_k` on `done`, once each and in that order, each
with `result` set to the fetch of its own `url` and its range string `min-max`; it then
returns, having consumed the one sentinel and nothing after it. -/
theorem worker_thread_until_sentinel (http_url : CString → CString → Option Buffer)
    (ts : List Task) (rest : List (Option Task)) :
    worker_thread http_url (ts.map some ++ none :: rest) =
      { done := ts.map fun t => Task.mk t.url t.min_range t.max_range
          (http_url t.url (sprintf_d t.min_range ++ ['-'] ++ sprintf_d t.max_range))
        unread := rest
        returned := true } := by
  induction ts with
  | nil => rfl
  | cons t ts ih =>
    have hstep : worker_thread http_url (some t :: (ts.map some ++ none :: rest)) =
        { worker_thread http_url (ts.map some ++ none :: rest) with
          done := Task.mk t.url t.min_range t.max_range
            (http_url t.url (sprintf_d t.min_range ++ ['-'] ++ sprintf_d t.max_range)) ::
            (worker_thread http_url (ts.map some ++ none :: rest)).done } := rfl
    rw [List.map_cons, List.cons_append, hstep, ih]
    rfl

/-! ## The chunk plan covers the resource within `int` range -/

theorem chunk_plan_bounds (w L : Int) (hw : 1 ≤ w) (hL : 0 ≤ L)
    (hsum : L + w < 2147483648) :
    0 ≤ L / w ∧ L < w * (L / w + 1) ∧ w * (L / w + 1) < 2147483648 := by
  have hq : 0 ≤ L / w := Int.ediv_nonneg hL (by omega)
  have h1 : L / w * w ≤ L := Int.ediv_mul_le L (by omega)
  have h2 : L < (L / w + 1) * w := Int.lt_ediv_add_one_mul_self L (by omega)
  refine ⟨hq, by nlinarith, by nlinarith⟩

theorem products_in_range (w s : Int) (i : Nat) (hs : 1 ≤ s) (hi : (i : Int) < w)
    (hfit : w * s < 2147483648) :
    0 ≤ (i : Int) * s ∧ (i : Int) * s < 2147483648 ∧
      0 ≤ ((i : Int) + 1) * s ∧ ((i : Int) + 1) * s < 2147483648 := by
  have hi0 : (0 : Int) ≤ i := Int.ofNat_nonneg i
  have h1 : ((i : Int) + 1) * s ≤ w * s := by nlinarith
  have h2 : (i : Int) * s ≤ ((i : Int) + 1) * s := by nlinarith
  have h3 : 0 ≤ (i : Int) * s := by nlinarith
  refine ⟨h3, by omega, by omega, by omega⟩

/-- C12: for a worker count `w ≥ 1` and a content length `L ≥ 0` with `L + w < 2^31`, the chunk
size `s = L / w + 1` that `get_num_tasks` stores is computed without overflow, `s ≥ 1` and
`w * s > L`; every byte offset `0 .. L-1` lies in the range `[i*s, (i+1)*s - 1]` of one of
the `w` tasks `main` enqueues; and every product `i*s`, `(i+1)*s` of `main` and `i*s` of
`merge_files` (`0 ≤ i < w`) is within the 32-bit signed range, so the wrapped `int` results
are the mathematical ones. -/
theorem chunk_plan_covers_without_overflow (w L : Int) (hw : 1 ≤ w) (hL : 0 ≤ L)
    (hsum : L + w < 2147483648) :
    1 ≤ L / w + 1 ∧ L < w * (L / w + 1) ∧
      wrap32 (wrap32 (Int.tdiv L w) + 1) = L / w + 1 ∧
      (∀ b : Int, 0 ≤ b → b < L →
        ∃ i : Nat, (i : Int) < w ∧ (i : Int) * (L / w + 1) ≤ b ∧
          b ≤ ((i : Int) + 1) * (L / w + 1) - 1) ∧
      (∀ (line : CString) (b : Int), 0 ≤ b → b < L →
        ∃ t ∈ enqueue_tasks line w (L / w + 1), t.min_range ≤ b ∧ b ≤ t.max_range) ∧
      (∀ i : Nat, (i : Int) < w →
        -2147483648 ≤ (i : Int) * (L / w + 1) ∧ (i : Int) * (L / w + 1) ≤ 2147483647 ∧
        -2147483648 ≤ ((i : Int) + 1) * (L / w + 1) ∧
        ((i : Int) + 1) * (L / w + 1) ≤ 2147483647 ∧
        wrap32 ((i : Int) * (L / w + 1)) = (i : Int) * (L / w + 1) ∧
        wrap32 (wrap32 (((i : Int) + 1) * (L / w + 1)) - 1) =
          ((i : Int) + 1) * (L / w + 1) - 1) ∧
      (∀ line : CString, enqueue_tasks line w (L / w + 1) = claimed_tasks line w L) ∧
      (∀ (src : CString) (i : Nat), (i : Int) < w →
        chunk_path src (L / w + 1) i = src ++ ['/'] ++ sprintf_d ((i : Int) * (L / w + 1))) := by
  obtain ⟨hq, hgt, hfit⟩ := chunk_plan_bounds w L hw hL hsum
  have hs : 1 ≤ L / w + 1 := by omega
  have hcover : ∀ b : Int, 0 ≤ b → b < L →
      ∃ i : Nat, (i : Int) < w ∧ (i : Int) * (L / w + 1) ≤ b ∧
        b ≤ ((i : Int) + 1) * (L / w + 1) - 1 := by
    intro b hb0 hbL
    have hd0 : 0 ≤ b / (L / w + 1) := Int.ediv_nonneg hb0 (by omega)
    have hcast : ((b / (L / w + 1)).toNat : Int) = b / (L / w + 1) := Int.toNat_of_nonneg hd0
    refine ⟨(b / (L / w + 1)).toNat, ?_, ?_, ?_⟩
    · rw [hcast]
      exact Int.ediv_lt_of_lt_mul (by omega) (by omega)
    · rw [hcast]
      exact Int.ediv_mul_le b (by omega)
    · rw [hcast]
      have := Int.lt_ediv_add_one_mul_self b (show 0 < L / w + 1 by omega)
      omega
  have heq : ∀ line : CString, enqueue_tasks line w (L / w + 1) = claimed_tasks line w L :=
    fun line => enqueue_tasks_eq line w (L / w + 1) hs hfit
  refine ⟨hs, hgt, chunk_size_eq w L hw hL hfit, hcover, ?_, ?_, heq, ?_⟩
  · intro line b hb0 hbL
    obtain ⟨i, hi, h1, h2⟩ := hcover b hb0 hbL
    refine ⟨new_task line ((i : Int) * (L / w + 1)) (((i : Int) + 1) * (L / w + 1) - 1),
      ?_, h1, h2⟩
    rw [heq line]
    unfold claimed_tasks
    exact List.mem_map.2 ⟨i, List.mem_range.2 (by omega), rfl⟩
  · intro i hi
    obtain ⟨h1, h2, h3, h4⟩ := products_in_range w (L / w + 1) i hs hi hfit
    refine ⟨by omega, by omega, by omega, by omega, wrap32_eq _ (by omega) (by omega), ?_⟩
    rw [wrap32_eq (((i : Int) + 1) * (L / w + 1)) (by omega) (by omega),
      wrap32_eq _ (by omega) (by omega)]
  · intro src i hi
    obtain ⟨h1, h2, _, _⟩ := products_in_range w (L / w + 1) i hs hi hfit
    unfold chunk_path
    rw [wrap32_eq _ (by omega) (by omega)]

/-- C12 witness: four workers and a content length of 100; the chunk size is 26 and the byte
at offset 99 lies in the range of the fourth task. -/
theorem chunk_plan_covers_without_overflow_witness :
    wrap32 (wrap32 (Int.tdiv 100 4) + 1) = 26 ∧ (100 : Int) < 4 * 26 ∧
      (∃ t ∈ enqueue_tasks "example.com/file".toList 4 26,
        t.min_range ≤ 99 ∧ 99 ≤ t.max_range) ∧
      chunk_path "dir".toList 26 3 = "dir/78".toList := by
  have h := chunk_plan_covers_without_overflow 4 100 (by decide) (by decide) (by decide)
  have e : (100 : Int) / 4 + 1 = 26 := by decide
  rw [e] at h
  obtain ⟨_, h2, h3, _, h5, _, _, h8⟩ := h
  exact ⟨h3, h2, h5 "example.com/file".toList 99 (by decide) (by decide),
    (h8 "dir".toList 3 (by decide)).trans (by decide)⟩

/-! ## The chunk files of one resource -/

theorem main_chunk_size_below_wrap (w L : Int) (hw : 1 ≤ w) (hw2 : w < 2147483648)
    (hL : 0 ≤ L) (hL2 : L < 2147483648)
    (hs : 1 ≤ wrap32 (wrap32 (Int.tdiv L w) + 1)) :
    (w - 1) * wrap32 (wrap32 (Int.tdiv L w) + 1) < 4294967296 := by
  have hq : 0 ≤ L / w := Int.ediv_nonneg hL (by omega)
  have h1 : L / w * w ≤ L := Int.ediv_mul_le L (by omega)
  have hqL : L / w ≤ L := by nlinarith
  rw [Int.tdiv_eq_ediv hL (by omega), wrap32_eq (L / w) (by omega) (by omega)] at hs ⊢
  by_cases hbig : L / w + 1 < 2147483648
  · rw [wrap32_eq _ (by omega) hbig]
    nlinarith
  · have he : L / w + 1 = 2147483648 := by omega
    rw [he] at hs
    exact absurd hs (by decide)

end Downloader
